import Mathlib

/-!
Shallow embedding of the conversational context selector
(`prepareMessageHistory`, frontend chat component) and of the
arbitration agreement score of the Monorepo repository, together with
proofs settling the frozen claims about them.

Message content is modelled as `List Char` (the sequence of characters
of the JavaScript string); `substring`/`length`/`includes` become
`take`/`length` and an explicit substring search.  `toLowerCase` is
modelled characterwise on the ASCII range; the Persian characters used
by the keyword list and the name pattern are unaffected by case
mapping, so the model agrees with the JavaScript semantics on them.
-/

namespace Monorepo

/-- The `type` field of a `ChatMessage` (`'user' | 'assistant'`). -/
inductive MsgType where
  | user
  | assistant
deriving DecidableEq

/-- The `ChatMessage` interface of the chat component.  The fields
`analysis`, `analysisMode` and `chart` of the source interface are
never read by `prepareMessageHistory` and are elided; `id`,
`timestamp`, `isAudio` and `audioUrl` are kept (also unread) so that
the purity/frame claims are about a record genuinely larger than the
part the selector reads. -/
structure ChatMessage where
  id : String
  type : MsgType
  content : List Char
  timestamp : Nat
  isAudio : Bool
  audioUrl : String
deriving DecidableEq

/-- One entry of the list returned by `prepareMessageHistory`:
`{ role: msg.type === 'user' ? 'user' : 'assistant', content: msg.content }`. -/
structure ChatTurn where
  role : String
  content : List Char
deriving DecidableEq

/-- The role/content projection applied by the source to each selected
message. -/
def toTurn (msg : ChatMessage) : ChatTurn :=
  ⟨if msg.type = MsgType.user then "user" else "assistant", msg.content⟩

/-- Characterwise lower-casing of the ASCII range, the model of
`String.prototype.toLowerCase` on the character sets this code
inspects (ASCII and Persian; Persian letters are case-less). -/
def jsToLower (cs : List Char) : List Char :=
  cs.map fun c => if 'A' ≤ c ∧ c ≤ 'Z' then Char.ofNat (c.toNat + 32) else c

/-- Does `cs` start with the pattern `pat`? -/
def startsWithL : List Char → List Char → Bool
  | [], _ => true
  | _ :: _, [] => false
  | p :: ps, c :: cs => p = c && startsWithL ps cs

/-- `cs.includes(pat)`: does `pat` occur as a contiguous substring of `cs`? -/
def containsSub (pat : List Char) : List Char → Bool
  | [] => startsWithL pat []
  | c :: cs => startsWithL pat (c :: cs) || containsSub pat cs

/-- The fixed keyword list `importantKeywords` of the source. -/
def importantKeywords : List (List Char) :=
  ["نام".toList, "اسم".toList, "کیه".toList, "کیست".toList, "کجا".toList,
   "چطور".toList, "چرا".toList, "چگونه".toList, "مشکل".toList, "خطا".toList,
   "اشتباه".toList, "کمک".toList, "راهنمایی".toList, "تحلیل".toList,
   "بررسی".toList, "نمودار".toList, "توضیح".toList, "پیشنهاد".toList,
   "نتیجه".toList]

/-- The character class `\s` of a JavaScript regular expression
(whitespace and line terminators, given by code point). -/
def isJsSpace (c : Char) : Bool :=
  c = ' ' || c = '\t' || c = '\n' || c = '\r' ||
  c.toNat = 0xb || c.toNat = 0xc || c.toNat = 0xa0 || c.toNat = 0x1680 ||
  (0x2000 ≤ c.toNat && c.toNat ≤ 0x200a) ||
  c.toNat = 0x2028 || c.toNat = 0x2029 || c.toNat = 0x202f ||
  c.toNat = 0x205f || c.toNat = 0x3000 || c.toNat = 0xfeff

/-- The character class `\w` of a JavaScript regular expression
(ASCII letters, digits and underscore). -/
def isJsWord (c : Char) : Bool :=
  ('a' ≤ c && c ≤ 'z') || ('A' ≤ c && c ≤ 'Z') || ('0' ≤ c && c ≤ '9') || c = '_'

/-- Drop the literal `lit` from the front of `cs`, or fail. -/
def dropLit : List Char → List Char → Option (List Char)
  | [], cs => some cs
  | _ :: _, [] => none
  | p :: ps, c :: cs => if p = c then dropLit ps cs else none

/-- Consume one or more characters of class `p` (greedily), or fail.
The name pattern alternates `\s+`/`\w+` with literals starting in a
character of neither class, so maximal munch is exact here. -/
def eat1 (p : Char → Bool) : List Char → Option (List Char)
  | [] => none
  | c :: cs => if p c then some (cs.dropWhile p) else none

/-- Match `نام\s+من` at the start of `cs`. -/
def nameAlt1 (cs : List Char) : Bool :=
  (((dropLit "نام".toList cs).bind (eat1 isJsSpace)).bind
    (dropLit "من".toList)).isSome

/-- Match `اسم\s+من` at the start of `cs`. -/
def nameAlt2 (cs : List Char) : Bool :=
  (((dropLit "اسم".toList cs).bind (eat1 isJsSpace)).bind
    (dropLit "من".toList)).isSome

/-- Match `من\s+\w+\s+هستم` at the start of `cs`. -/
def nameAlt3 (cs : List Char) : Bool :=
  (((((dropLit "من".toList cs).bind (eat1 isJsSpace)).bind
    (eat1 isJsWord)).bind (eat1 isJsSpace)).bind
    (dropLit "هستم".toList)).isSome

/-- `/نام\s+من|اسم\s+من|من\s+\w+\s+هستم/.test(cs)`: some suffix of `cs`
starts with one of the three alternatives. -/
def testNameRegex : List Char → Bool
  | [] => nameAlt1 [] || nameAlt2 [] || nameAlt3 []
  | c :: cs =>
    nameAlt1 (c :: cs) || nameAlt2 (c :: cs) || nameAlt3 (c :: cs) ||
      testNameRegex cs

/-- `hasImportantKeyword`: the lower-cased content contains some entry
of the keyword list. -/
def hasImportantKeyword (msg : ChatMessage) : Bool :=
  importantKeywords.any fun keyword => containsSub keyword (jsToLower msg.content)

/-- `isLongMessage`: the raw content is longer than 50 characters. -/
def isLongMessage (msg : ChatMessage) : Bool :=
  msg.content.length > 50

/-- `hasQuestion`: the lower-cased content contains `؟` or `?`. -/
def hasQuestion (msg : ChatMessage) : Bool :=
  containsSub "؟".toList (jsToLower msg.content) ||
    containsSub "?".toList (jsToLower msg.content)

/-- `hasName`: the name-introduction regular expression matches the
lower-cased content. -/
def hasName (msg : ChatMessage) : Bool :=
  testNameRegex (jsToLower msg.content)

/-- The condition under which a middle message is pushed onto
`importantMessages`:
`hasImportantKeyword || isLongMessage || hasQuestion || hasName`. -/
def qualifies (msg : ChatMessage) : Bool :=
  hasImportantKeyword msg || isLongMessage msg || hasQuestion msg || hasName msg

/-- `l.slice(-n)`: the last `n` elements of `l` (all of `l` if shorter). -/
def lastN (n : Nat) (l : List α) : List α :=
  l.drop (l.length - n)

/-- The deduplication key `` `${msg.type}-${msg.content.substring(0, 50)}` ``,
modelled as the pair of its two components (the types `user`/`assistant`
make the string encoding injective in the pair). -/
def dedupKey (msg : ChatMessage) : MsgType × List Char :=
  (msg.type, msg.content.take 50)

/-- The middle-message pass: for `previousMessages.length > 13`, every
message of `previousMessages.slice(3, -10)` satisfying `qualifies`, in
order; otherwise nothing. -/
def middleCandidates (previousMessages : List ChatMessage) : List ChatMessage :=
  if previousMessages.length > 13 then
    (((previousMessages.take (previousMessages.length - 10)).drop 3).filter qualifies)
  else []

/-- The `importantMessages` array as built by the source: the first 3
messages (when at least 3 exist), then `slice(-10)`, then the
qualifying middle messages. -/
def candidateMessages (previousMessages : List ChatMessage) : List ChatMessage :=
  (if previousMessages.length ≥ 3 then previousMessages.take 3 else []) ++
    lastN 10 previousMessages ++ middleCandidates previousMessages

/-- The deduplication loop: walk the candidates keeping the first
occurrence of each `dedupKey`, projecting kept messages with `toTurn`
(the source's `seen` set is modelled as the list of keys added so far). -/
def dedupLoop (seen : List (MsgType × List Char)) :
    List ChatMessage → List ChatTurn
  | [] => []
  | msg :: rest =>
    if dedupKey msg ∈ seen then dedupLoop seen rest
    else toTurn msg :: dedupLoop (dedupKey msg :: seen) rest

/-- The body of `prepareMessageHistory` after the initial
`messages.slice(0, -1)`: the selector on the history of prior turns
(`select` of the specification).  Histories of at most 8 messages are
returned whole (projected); otherwise the candidates are gathered,
deduplicated, and cut to the last 18. -/
def selectContext (previousMessages : List ChatMessage) : List ChatTurn :=
  if previousMessages.length ≤ 8 then previousMessages.map toTurn
  else lastN 18 (dedupLoop [] (candidateMessages previousMessages))

/-- `prepareMessageHistory(messages)`: drop the just-appended current
message, then select from the prior turns. -/
def prepareMessageHistory (messages : List ChatMessage) : List ChatTurn :=
  selectContext messages.dropLast

/-! ### Helper lemmas about the selector -/

theorem dedupLoop_sublist (seen : List (MsgType × List Char)) (l : List ChatMessage) :
    List.Sublist (dedupLoop seen l) (l.map toTurn) := by
  induction l generalizing seen with
  | nil => simp [dedupLoop]
  | cons m rest ih =>
    rw [dedupLoop, List.map_cons]
    by_cases hm : dedupKey m ∈ seen
    · rw [if_pos hm]
      exact List.sublist_cons_of_sublist _ (ih seen)
    · rw [if_neg hm]
      exact (ih _).cons₂ _

theorem dedupLoop_length_le (seen : List (MsgType × List Char)) (l : List ChatMessage) :
    (dedupLoop seen l).length ≤ l.length := by
  have h := (dedupLoop_sublist seen l).length_le
  simpa using h

theorem mem_of_mem_dedupLoop {t : ChatTurn} {seen : List (MsgType × List Char)}
    {l : List ChatMessage} (ht : t ∈ dedupLoop seen l) : ∃ m ∈ l, t = toTurn m := by
  have h := (dedupLoop_sublist seen l).subset ht
  rw [List.mem_map] at h
  obtain ⟨m, hm, e⟩ := h
  exact ⟨m, hm, e.symm⟩

theorem dedupLoop_of_nodupKeys : ∀ {l : List ChatMessage}
    {seen : List (MsgType × List Char)}, (l.map dedupKey).Nodup →
    (∀ m ∈ l, dedupKey m ∉ seen) → dedupLoop seen l = l.map toTurn := by
  intro l
  induction l with
  | nil => intro seen _ _; rfl
  | cons m rest ih =>
    intro seen hnd hseen
    rw [List.map_cons, List.nodup_cons] at hnd
    rw [dedupLoop, if_neg (hseen m (List.mem_cons_self m rest)), List.map_cons]
    refine congrArg _ (ih hnd.2 ?_)
    intro m₂ hm₂
    rw [List.mem_cons]
    push_neg
    refine ⟨?_, hseen m₂ (List.mem_cons_of_mem m hm₂)⟩
    intro hkey
    exact hnd.1 (hkey ▸ List.mem_map_of_mem dedupKey hm₂)

/-- Recover a message dedup key from an output turn: the selector only
emits roles `"user"`/`"assistant"`, so the role determines the `type`. -/
def turnKey (t : ChatTurn) : MsgType × List Char :=
  (if t.role = "user" then MsgType.user else MsgType.assistant, t.content.take 50)

theorem turnKey_toTurn (m : ChatMessage) : turnKey (toTurn m) = dedupKey m := by
  cases htype : m.type <;> simp [turnKey, toTurn, dedupKey, htype]

theorem dedupLoop_key_not_seen : ∀ {l : List ChatMessage}
    {seen : List (MsgType × List Char)} {t : ChatTurn},
    t ∈ dedupLoop seen l → turnKey t ∉ seen := by
  intro l
  induction l with
  | nil => intro seen t ht; exact absurd ht (List.not_mem_nil t)
  | cons m rest ih =>
    intro seen t ht
    rw [dedupLoop] at ht
    by_cases hm : dedupKey m ∈ seen
    · rw [if_pos hm] at ht
      exact ih ht
    · rw [if_neg hm] at ht
      rcases List.mem_cons.mp ht with he | ht₂
      · rw [he, turnKey_toTurn]; exact hm
      · intro hseen
        exact ih ht₂ (List.mem_cons_of_mem _ hseen)

theorem dedupLoop_keys_pairwise (seen : List (MsgType × List Char))
    (l : List ChatMessage) :
    (dedupLoop seen l).Pairwise (fun a b => turnKey a ≠ turnKey b) := by
  induction l generalizing seen with
  | nil => exact List.Pairwise.nil
  | cons m rest ih =>
    rw [dedupLoop]
    by_cases hm : dedupKey m ∈ seen
    · rw [if_pos hm]; exact ih seen
    · rw [if_neg hm]
      refine List.pairwise_cons.mpr ⟨?_, ih _⟩
      intro t ht he
      have h := dedupLoop_key_not_seen ht
      rw [← he, turnKey_toTurn] at h
      exact h (List.mem_cons_self _ _)

theorem dedupLoop_covers : ∀ {l : List ChatMessage}
    {seen : List (MsgType × List Char)} {m : ChatMessage},
    m ∈ l → dedupKey m ∉ seen →
    ∃ t ∈ dedupLoop seen l, turnKey t = dedupKey m := by
  intro l
  induction l with
  | nil => intro seen m hm; exact absurd hm (List.not_mem_nil m)
  | cons x rest ih =>
    intro seen m hm hseen
    rw [dedupLoop]
    by_cases hx : dedupKey x ∈ seen
    · rw [if_pos hx]
      rcases List.mem_cons.mp hm with he | hm₂
      · exact absurd (he ▸ hseen) (fun hc => hc hx)
      · exact ih hm₂ hseen
    · rw [if_neg hx]
      by_cases hkey : dedupKey m = dedupKey x
      · exact ⟨toTurn x, List.mem_cons_self _ _, by rw [turnKey_toTurn, hkey]⟩
      · rcases List.mem_cons.mp hm with he | hm₂
        · exact absurd (he ▸ hkey) (fun hc => hc rfl)
        · obtain ⟨t, ht, he⟩ := ih hm₂ (by
            rw [List.mem_cons]
            push_neg
            exact ⟨hkey, hseen⟩)
          exact ⟨t, List.mem_cons_of_mem _ ht, he⟩

theorem dedupLoop_split (P Q : List ChatMessage) (x : ChatMessage) :
    ∀ seen, dedupKey x ∉ seen → dedupKey x ∉ P.map dedupKey →
    ∃ A B, dedupLoop seen (P ++ x :: Q) = A ++ toTurn x :: B ∧
      B.length ≤ Q.length := by
  induction P with
  | nil =>
    intro seen hx _
    rw [List.nil_append, dedupLoop, if_neg hx]
    exact ⟨[], dedupLoop (dedupKey x :: seen) Q, rfl, dedupLoop_length_le _ Q⟩
  | cons p P ih =>
    intro seen hx hP
    rw [List.map_cons, List.mem_cons] at hP
    push_neg at hP
    rw [List.cons_append, dedupLoop]
    by_cases hp : dedupKey p ∈ seen
    · rw [if_pos hp]
      exact ih seen hx hP.2
    · rw [if_neg hp]
      obtain ⟨A, B, hAB, hB⟩ := ih (dedupKey p :: seen)
        (by rw [List.mem_cons]; push_neg; exact ⟨hP.1, hx⟩) hP.2
      exact ⟨toTurn p :: A, B, by rw [hAB, List.cons_append], hB⟩

theorem lastN_of_length_le {l : List α} {n : Nat} (h : l.length ≤ n) :
    lastN n l = l := by
  unfold lastN
  rw [Nat.sub_eq_zero_of_le h, List.drop_zero]

theorem mem_lastN_append {n : Nat} (A B : List ChatTurn) (x : ChatTurn)
    (hB : B.length < n) : x ∈ lastN n (A ++ x :: B) := by
  unfold lastN
  rw [List.drop_append_eq_append_drop]
  have hlen : (A ++ x :: B).length = A.length + (B.length + 1) := by
    simp [List.length_append]
  have hle : (A ++ x :: B).length - n ≤ A.length := by omega
  rw [Nat.sub_eq_zero_of_le hle, List.drop_zero]
  exact List.mem_append_right _ (List.mem_cons_self x B)

/-! ### Concrete messages used by witnesses and counterexamples -/

/-- A user message with the given content (unread fields arbitrary). -/
def msgU (c : String) : ChatMessage :=
  ⟨"", MsgType.user, c.toList, 0, false, ""⟩

/-- An assistant message with the given content (unread fields arbitrary). -/
def msgA (c : String) : ChatMessage :=
  ⟨"", MsgType.assistant, c.toList, 0, false, ""⟩

/-! ### Claim theorems -/

/-- C3: for every history of at most 8 prior turns, the selector
returns the history unchanged — each prior turn projected to its role
(`'user'` for type `'user'`, `'assistant'` otherwise) and its original
content, in the original order, and nothing else. -/
theorem select_short_identity (h : List ChatMessage) (hle : h.length ≤ 8) :
    selectContext h =
      h.map (fun m => ⟨if m.type = MsgType.user then "user" else "assistant",
        m.content⟩) := by
  unfold selectContext
  rw [if_pos hle]
  rfl

/-- Witness for C3 at a concrete two-turn history. -/
theorem select_short_identity_witness :
    [msgU "سلام", msgA "درود"].length ≤ 8 ∧
    selectContext [msgU "سلام", msgA "درود"] =
      [msgU "سلام", msgA "درود"].map
        (fun m => ⟨if m.type = MsgType.user then "user" else "assistant",
          m.content⟩) :=
  ⟨by decide, select_short_identity [msgU "سلام", msgA "درود"] (by decide)⟩

/-- C4: for every history, of any length and content, the selector
returns at most 18 turns. -/
theorem select_hard_cap (h : List ChatMessage) :
    (selectContext h).length ≤ 18 := by
  unfold selectContext
  by_cases hle : h.length ≤ 8
  · rw [if_pos hle, List.length_map]
    omega
  · rw [if_neg hle]
    unfold lastN
    rw [List.length_drop]
    omega

/-- C8: the selector is a total function — in this embedding it is a
plain function into lists, so every history (of any content, empty
contents included) is mapped to a result — and the empty history is
mapped to the empty sequence. -/
theorem select_total_empty :
    selectContext [] = [] ∧
      ∀ h : List ChatMessage, ∃ r : List ChatTurn, selectContext h = r :=
  ⟨rfl, fun h => ⟨selectContext h, rfl⟩⟩

/-- C10: every entry of the selector's output is the role/content
projection of some turn of the input history, with role `'user'`
exactly for source type `'user'` and `'assistant'` otherwise; nothing
is fabricated and no content is altered. -/
theorem select_provenance (h : List ChatMessage) (t : ChatTurn)
    (ht : t ∈ selectContext h) :
    ∃ m, m ∈ h ∧
      t.role = (if m.type = MsgType.user then "user" else "assistant") ∧
      t.content = m.content := by
  suffices hs : ∃ m, m ∈ h ∧ t = toTurn m by
    obtain ⟨m, hm, he⟩ := hs
    exact ⟨m, hm, by rw [he]; exact ⟨rfl, rfl⟩⟩
  unfold selectContext at ht
  by_cases hle : h.length ≤ 8
  · rw [if_pos hle, List.mem_map] at ht
    obtain ⟨m, hm, he⟩ := ht
    exact ⟨m, hm, he.symm⟩
  · rw [if_neg hle] at ht
    have ht₂ : t ∈ dedupLoop [] (candidateMessages h) :=
      List.drop_subset _ _ ht
    obtain ⟨m, hm, he⟩ := mem_of_mem_dedupLoop ht₂
    refine ⟨m, ?_, he⟩
    unfold candidateMessages at hm
    rcases List.mem_append.mp hm with hm₁ | hmid
    · rcases List.mem_append.mp hm₁ with hfirst | hrecent
      · by_cases h3 : h.length ≥ 3
        · rw [if_pos h3] at hfirst
          exact List.take_subset 3 h hfirst
        · rw [if_neg h3] at hfirst
          exact absurd hfirst (List.not_mem_nil m)
      · exact List.drop_subset _ h hrecent
    · unfold middleCandidates at hmid
      by_cases h13 : h.length > 13
      · rw [if_pos h13] at hmid
        exact List.take_subset _ h
          (List.drop_subset _ _ (List.mem_of_mem_filter hmid))
      · rw [if_neg h13] at hmid
        exact absurd hmid (List.not_mem_nil m)

/-- Witness for C10 at a concrete history and output entry. -/
theorem select_provenance_witness :
    (⟨"user", "hi".toList⟩ : ChatTurn) ∈ selectContext [msgU "hi"] ∧
    ∃ m, m ∈ [msgU "hi"] ∧
      (⟨"user", "hi".toList⟩ : ChatTurn).role =
        (if m.type = MsgType.user then "user" else "assistant") ∧
      (⟨"user", "hi".toList⟩ : ChatTurn).content = m.content :=
  ⟨by decide, select_provenance [msgU "hi"] ⟨"user", "hi".toList⟩ (by decide)⟩

/-- C6: on the long-history path the concatenated candidates are
deduplicated by `(type, first 50 characters)`: the deduplicated list is
an order-preserving subsequence of the projected candidates, every
candidate key keeps a representative, and no two entries of the
selector's output share both role and the first 50 characters of
content. -/
theorem select_dedup_keys (h : List ChatMessage) (hlen : 8 < h.length) :
    List.Sublist (dedupLoop [] (candidateMessages h))
      ((candidateMessages h).map toTurn) ∧
    (∀ m ∈ candidateMessages h, ∃ t ∈ dedupLoop [] (candidateMessages h),
      turnKey t = dedupKey m) ∧
    (selectContext h).Pairwise
      (fun a b => ¬(a.role = b.role ∧ a.content.take 50 = b.content.take 50)) := by
  refine ⟨dedupLoop_sublist _ _,
    fun m hm => dedupLoop_covers hm (List.not_mem_nil _), ?_⟩
  unfold selectContext
  rw [if_neg (by omega)]
  have hp := dedupLoop_keys_pairwise [] (candidateMessages h)
  have hp₂ : (dedupLoop [] (candidateMessages h)).Pairwise
      (fun a b => ¬(a.role = b.role ∧ a.content.take 50 = b.content.take 50)) := by
    refine hp.imp ?_
    intro a b hne hconj
    refine hne ?_
    unfold turnKey
    rw [hconj.1, hconj.2]
  exact hp₂.sublist (List.drop_sublist _ _)

/-- A concrete nine-turn history with pairwise-distinct contents. -/
def hW9 : List ChatMessage :=
  [msgU "c0", msgA "c1", msgU "c2", msgA "c3", msgU "c4", msgA "c5",
   msgU "c6", msgA "c7", msgU "c8"]

/-- Witness for C6 at a concrete nine-turn history. -/
theorem select_dedup_keys_witness :
    (8 < hW9.length) ∧
    (List.Sublist (dedupLoop [] (candidateMessages hW9))
      ((candidateMessages hW9).map toTurn) ∧
    (∀ m ∈ candidateMessages hW9, ∃ t ∈ dedupLoop [] (candidateMessages hW9),
      turnKey t = dedupKey m) ∧
    (selectContext hW9).Pairwise
      (fun a b => ¬(a.role = b.role ∧ a.content.take 50 = b.content.take 50))) :=
  ⟨by decide, select_dedup_keys hW9 (by decide)⟩

/-- The part of a `ChatMessage` that `prepareMessageHistory` reads:
its `type` and its `content`. -/
def proj (m : ChatMessage) : MsgType × List Char :=
  (m.type, m.content)

theorem toTurn_of_proj_eq {m₁ m₂ : ChatMessage} (e : proj m₁ = proj m₂) :
    toTurn m₁ = toTurn m₂ := by
  have ht : m₁.type = m₂.type := congrArg Prod.fst e
  have hc : m₁.content = m₂.content := congrArg Prod.snd e
  unfold toTurn
  rw [ht, hc]

theorem dedupKey_of_proj_eq {m₁ m₂ : ChatMessage} (e : proj m₁ = proj m₂) :
    dedupKey m₁ = dedupKey m₂ := by
  have ht : m₁.type = m₂.type := congrArg Prod.fst e
  have hc : m₁.content = m₂.content := congrArg Prod.snd e
  unfold dedupKey
  rw [ht, hc]

theorem qualifies_of_proj_eq {m₁ m₂ : ChatMessage} (e : proj m₁ = proj m₂) :
    qualifies m₁ = qualifies m₂ := by
  have hc : m₁.content = m₂.content := congrArg Prod.snd e
  unfold qualifies hasImportantKeyword isLongMessage hasQuestion hasName
  rw [hc]

theorem map_toTurn_of_proj_eq : ∀ {l₁ l₂ : List ChatMessage},
    l₁.map proj = l₂.map proj → l₁.map toTurn = l₂.map toTurn := by
  intro l₁
  induction l₁ with
  | nil =>
    intro l₂ e
    cases l₂ with
    | nil => rfl
    | cons m₂ t₂ => simp at e
  | cons m₁ t₁ ih =>
    intro l₂ e
    cases l₂ with
    | nil => simp at e
    | cons m₂ t₂ =>
      simp only [List.map_cons, List.cons.injEq] at e ⊢
      exact ⟨toTurn_of_proj_eq e.1, ih e.2⟩

theorem filter_map_proj : ∀ {l₁ l₂ : List ChatMessage},
    l₁.map proj = l₂.map proj →
    (l₁.filter qualifies).map proj = (l₂.filter qualifies).map proj := by
  intro l₁
  induction l₁ with
  | nil =>
    intro l₂ e
    cases l₂ with
    | nil => rfl
    | cons m₂ t₂ => simp at e
  | cons m₁ t₁ ih =>
    intro l₂ e
    cases l₂ with
    | nil => simp at e
    | cons m₂ t₂ =>
      simp only [List.map_cons, List.cons.injEq] at e
      have hq := qualifies_of_proj_eq e.1
      rw [List.filter_cons, List.filter_cons, ← hq]
      by_cases hqm : qualifies m₁ = true
      · rw [if_pos hqm, if_pos hqm]
        simp only [List.map_cons, List.cons.injEq]
        exact ⟨e.1, ih e.2⟩
      · rw [if_neg hqm, if_neg hqm]
        exact ih e.2

theorem dedupLoop_of_proj_eq : ∀ {l₁ l₂ : List ChatMessage}
    (seen : List (MsgType × List Char)), l₁.map proj = l₂.map proj →
    dedupLoop seen l₁ = dedupLoop seen l₂ := by
  intro l₁
  induction l₁ with
  | nil =>
    intro l₂ seen e
    cases l₂ with
    | nil => rfl
    | cons m₂ t₂ => simp at e
  | cons m₁ t₁ ih =>
    intro l₂ seen e
    cases l₂ with
    | nil => simp at e
    | cons m₂ t₂ =>
      simp only [List.map_cons, List.cons.injEq] at e
      have hk := dedupKey_of_proj_eq e.1
      rw [dedupLoop, dedupLoop, ← hk]
      by_cases hmem : dedupKey m₁ ∈ seen
      · rw [if_pos hmem, if_pos hmem]
        exact ih seen e.2
      · rw [if_neg hmem, if_neg hmem]
        rw [toTurn_of_proj_eq e.1, ih (dedupKey m₁ :: seen) e.2]

theorem candidateMessages_map_proj {h₁ h₂ : List ChatMessage}
    (e : h₁.map proj = h₂.map proj) :
    (candidateMessages h₁).map proj = (candidateMessages h₂).map proj := by
  have hlen : h₁.length = h₂.length := by
    simpa using congrArg List.length e
  have hfirst : ((if h₁.length ≥ 3 then h₁.take 3 else []).map proj) =
      ((if h₂.length ≥ 3 then h₂.take 3 else []).map proj) := by
    rw [hlen]
    by_cases h3 : h₂.length ≥ 3
    · rw [if_pos h3, if_pos h3, List.map_take, List.map_take, e]
    · rw [if_neg h3, if_neg h3]
  have hrecent : (lastN 10 h₁).map proj = (lastN 10 h₂).map proj := by
    unfold lastN
    rw [List.map_drop, List.map_drop, e, hlen]
  have hmid : (middleCandidates h₁).map proj = (middleCandidates h₂).map proj := by
    unfold middleCandidates
    rw [hlen]
    by_cases h13 : h₂.length > 13
    · rw [if_pos h13, if_pos h13]
      refine filter_map_proj ?_
      rw [List.map_drop, List.map_drop, List.map_take, List.map_take, e]
    · rw [if_neg h13, if_neg h13]
  unfold candidateMessages
  simp only [List.map_append]
  rw [hfirst, hrecent, hmid]

/-- C9: the selector is a pure function of its input: it reads only the
`type`/`content` projection of the history, so any two histories equal
under that projection (in particular, two equal histories) give equal
outputs.  Mutation-freedom is inherent in the embedding: the source
accesses `messages` only through `slice`, `map` and reads of
`msg.type`/`msg.content`, which is what these definitions model. -/
theorem select_pure (h₁ h₂ : List ChatMessage)
    (e : h₁.map proj = h₂.map proj) :
    selectContext h₁ = selectContext h₂ := by
  have hlen : h₁.length = h₂.length := by
    simpa using congrArg List.length e
  unfold selectContext
  rw [hlen]
  by_cases hle : h₂.length ≤ 8
  · rw [if_pos hle, if_pos hle]
    exact map_toTurn_of_proj_eq e
  · rw [if_neg hle, if_neg hle]
    rw [dedupLoop_of_proj_eq [] (candidateMessages_map_proj e)]

/-- Witness for C9: two histories equal in role and content but with
different `id`, `timestamp`, `isAudio` and `audioUrl` fields. -/
theorem select_pure_witness :
    ([⟨"id1", MsgType.user, "سلام".toList, 5, true, "u1"⟩].map proj =
      [⟨"id2", MsgType.user, "سلام".toList, 9, false, "u2"⟩].map proj) ∧
    selectContext [⟨"id1", MsgType.user, "سلام".toList, 5, true, "u1"⟩] =
      selectContext [⟨"id2", MsgType.user, "سلام".toList, 9, false, "u2"⟩] :=
  ⟨rfl, select_pure _ _ rfl⟩

/-- A 31-turn history: three openers, eighteen middle turns that all
qualify (each contains a question mark), ten recent turns; all
deduplication keys distinct. -/
def h31 : List ChatMessage :=
  [msgU "a0", msgU "a1", msgU "a2",
   msgU "q3?", msgU "q4?", msgU "q5?", msgU "q6?", msgU "q7?", msgU "q8?", msgU "q9?", msgU "q10?", msgU "q11?", msgU "q12?", msgU "q13?", msgU "q14?", msgU "q15?", msgU "q16?", msgU "q17?", msgU "q18?", msgU "q19?", msgU "q20?",
   msgA "b21", msgA "b22", msgA "b23", msgA "b24", msgA "b25", msgA "b26", msgA "b27", msgA "b28", msgA "b29", msgA "b30"]

/-- C1, counterexample: for the 31-turn history `h31` the most recent
prior turn (`b30`) is absent from the selector's output — the middle
candidates are appended after the recent block, so the final
`slice(-18)` evicts the recent turns, not the older ones. -/
theorem select_recent_turn_dropped :
    h31.getLast? = some (msgA "b30") ∧
    toTurn (msgA "b30") ∉ selectContext h31 := by decide

/-- A 30-turn history: turns 0–2 carry identity statements, turns 3–19
contain no keyword, are at most 50 characters long and contain no
question mark (the claim's notion of filler), yet each matches the
name-introduction pattern `من\s+\w+\s+هستم`; turns 20–29 are the
recent block. -/
def h30 : List ChatMessage :=
  [msgU "نام من علی0", msgU "نام من علی1", msgU "نام من علی2",
   msgU "من Ali3 هستم", msgU "من Ali4 هستم", msgU "من Ali5 هستم", msgU "من Ali6 هستم", msgU "من Ali7 هستم", msgU "من Ali8 هستم", msgU "من Ali9 هستم", msgU "من Ali10 هستم", msgU "من Ali11 هستم", msgU "من Ali12 هستم", msgU "من Ali13 هستم", msgU "من Ali14 هستم", msgU "من Ali15 هستم", msgU "من Ali16 هستم", msgU "من Ali17 هستم", msgU "من Ali18 هستم", msgU "من Ali19 هستم",
   msgA "b20", msgA "b21", msgA "b22", msgA "b23", msgA "b24", msgA "b25", msgA "b26", msgA "b27", msgA "b28", msgA "b29"]

/-- C2, counterexample: `h30` satisfies the claim's hypotheses — length
30, identity statements in turns 0–2, turns 3–19 filler in the claim's
sense (no keyword, ≤ 50 characters, no question mark) — but the
identity-bearing turn 0 is missing from the selector's output: every
filler turn matches the fourth (unstated) name-pattern trigger, the
middle block floods the candidate list, and `slice(-18)` drops the
openers. -/
theorem select_retention_scenario_broken :
    h30.length = 30 ∧
    (∀ m ∈ (h30.take (h30.length - 10)).drop 3,
      hasImportantKeyword m = false ∧ isLongMessage m = false ∧
        hasQuestion m = false) ∧
    (∀ m ∈ h30.take 3, hasImportantKeyword m = true) ∧
    msgU "نام من علی0" ∈ h30.take 3 ∧
    toTurn (msgU "نام من علی0") ∉ selectContext h30 := by decide

/-- A 14-turn history whose single middle turn (index 3) contains no
keyword, is short, and has no question mark, but matches
`من\s+\w+\s+هستم`. -/
def h14 : List ChatMessage :=
  [msgU "a0", msgU "a1", msgU "a2", msgU "من Ali هستم",
   msgA "b4", msgU "b5", msgA "b6", msgU "b7", msgA "b8", msgU "b9",
   msgA "b10", msgU "b11", msgA "b12", msgU "b13"]

/-- C5, counterexample: the middle turn `من Ali هستم` of `h14` fails
all three triggers named by the claim (keyword list, length over 50,
question mark) yet is added to the candidate sequence — and reaches the
selector's output — because the code also tests the name-introduction
regular expression. -/
theorem middle_fourth_trigger :
    hasImportantKeyword (msgU "من Ali هستم") = false ∧
    isLongMessage (msgU "من Ali هستم") = false ∧
    hasQuestion (msgU "من Ali هستم") = false ∧
    msgU "من Ali هستم" ∈ middleCandidates h14 ∧
    toTurn (msgU "من Ali هستم") ∈ selectContext h14 := by decide

/-- C5, amended: for every history long enough to have a middle region,
a middle turn is added to the candidate sequence if and only if at
least one of FOUR independent triggers holds: the keyword list, content
length over 50, a question mark, or the name-introduction regular
expression `نام\s+من|اسم\s+من|من\s+\w+\s+هستم`. -/
theorem middle_qualification (h : List ChatMessage) (m : ChatMessage)
    (hlen : 13 < h.length)
    (hm : m ∈ (h.take (h.length - 10)).drop 3) :
    m ∈ middleCandidates h ↔
      (hasImportantKeyword m = true ∨ isLongMessage m = true ∨
        hasQuestion m = true ∨ hasName m = true) := by
  unfold middleCandidates
  rw [if_pos hlen, List.mem_filter]
  simp [hm, qualifies, Bool.or_eq_true, or_assoc]

/-- Witness for the amended C5 at the concrete history `h14`. -/
theorem middle_qualification_witness :
    (13 < h14.length) ∧
    (msgU "من Ali هستم" ∈ (h14.take (h14.length - 10)).drop 3) ∧
    (msgU "من Ali هستم" ∈ middleCandidates h14 ↔
      (hasImportantKeyword (msgU "من Ali هستم") = true ∨
        isLongMessage (msgU "من Ali هستم") = true ∨
        hasQuestion (msgU "من Ali هستم") = true ∨
        hasName (msgU "من Ali هستم") = true)) :=
  ⟨by decide, by decide, middle_qualification h14 _ (by decide) (by decide)⟩

/-- C2, amended: the retention scenario holds once filler also excludes
the name-introduction pattern (the fourth trigger the code tests) and
the turns have pairwise-distinct deduplication keys: for a 30-turn
history with identity statements in turns 0–2 and such filler in turns
3–19, the output contains the projections of turns 0–2 and of all of
the last 10 turns, and has at most 18 entries. -/
theorem select_retention_scenario (h : List ChatMessage)
    (hlen : h.length = 30)
    (hnd : (h.map dedupKey).Nodup)
    (_hid : ∀ m ∈ h.take 3, hasImportantKeyword m = true ∨ hasName m = true)
    (hfill : ∀ m ∈ (h.take (h.length - 10)).drop 3,
      hasImportantKeyword m = false ∧ isLongMessage m = false ∧
        hasQuestion m = false ∧ hasName m = false) :
    (∀ m ∈ h.take 3, toTurn m ∈ selectContext h) ∧
    (∀ m ∈ lastN 10 h, toTurn m ∈ selectContext h) ∧
    (selectContext h).length ≤ 18 := by
  have hmidnil : middleCandidates h = [] := by
    unfold middleCandidates
    rw [if_pos (by omega), List.filter_eq_nil_iff]
    intro m hm
    obtain ⟨h1, h2, h3, h4⟩ := hfill m hm
    simp [qualifies, h1, h2, h3, h4]
  have hcand : candidateMessages h = h.take 3 ++ lastN 10 h := by
    unfold candidateMessages
    rw [if_pos (by omega), hmidnil, List.append_nil]
  have hsub : List.Sublist ((h.take 3 ++ lastN 10 h).map dedupKey)
      (h.map dedupKey) := by
    refine List.Sublist.map dedupKey ?_
    have h20 : lastN 10 h = (h.drop 3).drop 17 := by
      unfold lastN
      rw [List.drop_drop, hlen]
    have hs1 : List.Sublist (h.take 3 ++ (h.drop 3).drop 17)
        (h.take 3 ++ h.drop 3) :=
      List.Sublist.append_left (List.drop_sublist _ _) _
    rw [List.take_append_drop] at hs1
    rw [h20]
    exact hs1
  have hnodup : ((h.take 3 ++ lastN 10 h).map dedupKey).Nodup :=
    List.Nodup.sublist hsub hnd
  have hsel : selectContext h = (h.take 3 ++ lastN 10 h).map toTurn := by
    unfold selectContext
    rw [if_neg (by omega), hcand,
      dedupLoop_of_nodupKeys hnodup (fun m _ => List.not_mem_nil _)]
    refine lastN_of_length_le ?_
    rw [List.length_map, List.length_append, List.length_take]
    unfold lastN
    rw [List.length_drop]
    omega
  refine ⟨?_, ?_, ?_⟩
  · intro m hm
    rw [hsel]
    exact List.mem_map_of_mem toTurn (List.mem_append_left _ hm)
  · intro m hm
    rw [hsel]
    exact List.mem_map_of_mem toTurn (List.mem_append_right _ hm)
  · rw [hsel, List.length_map, List.length_append, List.length_take]
    unfold lastN
    rw [List.length_drop]
    omega

/-- A 30-turn history realising the amended retention scenario: three
identity openers, seventeen genuinely neutral filler turns, ten recent
turns, all with distinct keys. -/
def hW30 : List ChatMessage :=
  [msgU "نام من رضا0", msgU "نام من رضا1", msgU "نام من رضا2",
   msgU "f3", msgA "f4", msgU "f5", msgA "f6", msgU "f7", msgA "f8",
   msgU "f9", msgA "f10", msgU "f11", msgA "f12", msgU "f13", msgA "f14",
   msgU "f15", msgA "f16", msgU "f17", msgA "f18", msgU "f19",
   msgA "r20", msgU "r21", msgA "r22", msgU "r23", msgA "r24",
   msgU "r25", msgA "r26", msgU "r27", msgA "r28", msgU "r29"]

/-- Witness for the amended C2 at the concrete history `hW30`. -/
theorem select_retention_scenario_witness :
    (hW30.length = 30) ∧
    ((hW30.map dedupKey).Nodup) ∧
    (∀ m ∈ hW30.take 3, hasImportantKeyword m = true ∨ hasName m = true) ∧
    (∀ m ∈ (hW30.take (hW30.length - 10)).drop 3,
      hasImportantKeyword m = false ∧ isLongMessage m = false ∧
        hasQuestion m = false ∧ hasName m = false) ∧
    ((∀ m ∈ hW30.take 3, toTurn m ∈ selectContext hW30) ∧
      (∀ m ∈ lastN 10 hW30, toTurn m ∈ selectContext hW30) ∧
      (selectContext hW30).length ≤ 18) :=
  ⟨by decide, by decide, by decide, by decide,
    select_retention_scenario hW30 (by decide) (by decide) (by decide)
      (by decide)⟩

/-- C1, amended: the most recent prior turn survives provided the
middle pass cannot flood the window: for every non-empty history whose
turns have pairwise-distinct deduplication keys and in which at most 17
middle turns qualify, the projection of the most recent prior turn is
present in the selector's output. -/
theorem select_recent_turn_present (h : List ChatMessage) (x : ChatMessage)
    (hlast : h.getLast? = some x)
    (hnd : (h.map dedupKey).Nodup)
    (hmid : (middleCandidates h).length ≤ 17) :
    toTurn x ∈ selectContext h := by
  have hne : h ≠ [] := by
    intro h0
    rw [h0] at hlast
    exact Option.noConfusion hlast
  have hx : h.dropLast ++ [x] = h := by
    have h1 := List.dropLast_append_getLast hne
    have h2 := List.getLast?_eq_getLast_of_ne_nil hne
    rw [hlast] at h2
    injection h2 with h2
    rw [h2]
    exact h1
  have hxm : x ∈ h := by
    rw [← hx]
    exact List.mem_append_right _ (List.mem_cons_self _ _)
  unfold selectContext
  by_cases hle : h.length ≤ 8
  · rw [if_pos hle]
    exact List.mem_map_of_mem toTurn hxm
  · rw [if_neg hle]
    have hlend : h.dropLast.length = h.length - 1 := List.length_dropLast h
    have hlen9 : 9 ≤ h.length := by omega
    -- the candidate list splits around the most recent turn
    have hdropsplit : h.drop (h.length - 10) =
        h.dropLast.drop (h.length - 10) ++ [x] := by
      have h0 : h.length - 10 - h.dropLast.length = 0 := by omega
      calc h.drop (h.length - 10)
          = (h.dropLast ++ [x]).drop (h.length - 10) := by rw [hx]
        _ = h.dropLast.drop (h.length - 10) ++
              [x].drop (h.length - 10 - h.dropLast.length) :=
            List.drop_append_eq_append_drop
        _ = h.dropLast.drop (h.length - 10) ++ [x] := by
            rw [h0, List.drop_zero]
    have hcand : candidateMessages h =
        (h.take 3 ++ h.dropLast.drop (h.length - 10)) ++
          x :: middleCandidates h := by
      unfold candidateMessages lastN
      rw [if_pos (by omega : h.length ≥ 3), hdropsplit]
      simp [List.append_assoc]
    -- the key of the most recent turn is fresh among the earlier candidates
    have hnd2 : ((h.dropLast.map dedupKey) ++ ([x].map dedupKey)).Nodup := by
      rw [← List.map_append, hx]
      exact hnd
    have hkx : dedupKey x ∉ h.dropLast.map dedupKey := by
      intro hmem
      exact (List.nodup_append.mp hnd2).2.2 hmem (by simp)
    have hxnotin : dedupKey x ∉
        (h.take 3 ++ h.dropLast.drop (h.length - 10)).map dedupKey := by
      intro hin
      rw [List.map_append, List.mem_append] at hin
      have ht3 : h.take 3 = h.dropLast.take 3 := by
        have h0 : 3 - h.dropLast.length = 0 := by omega
        calc h.take 3 = (h.dropLast ++ [x]).take 3 := by rw [hx]
          _ = h.dropLast.take 3 ++ [x].take (3 - h.dropLast.length) :=
              List.take_append_eq_append_take
          _ = h.dropLast.take 3 := by
              rw [h0, List.take_zero, List.append_nil]
      rcases hin with h1 | h2
      · rw [ht3, List.mem_map] at h1
        obtain ⟨m, hm, he⟩ := h1
        exact hkx (he ▸ List.mem_map_of_mem dedupKey (List.take_subset _ _ hm))
      · rw [List.mem_map] at h2
        obtain ⟨m, hm, he⟩ := h2
        exact hkx (he ▸ List.mem_map_of_mem dedupKey (List.drop_subset _ _ hm))
    obtain ⟨A, B, hAB, hB⟩ := dedupLoop_split
      (h.take 3 ++ h.dropLast.drop (h.length - 10)) (middleCandidates h) x []
      (List.not_mem_nil _) hxnotin
    rw [hcand, hAB]
    exact mem_lastN_append A B (toTurn x) (by omega)

/-- Witness for the amended C1 at a concrete single-turn history. -/
theorem select_recent_turn_present_witness :
    ([msgU "سلام"].getLast? = some (msgU "سلام")) ∧
    (([msgU "سلام"].map dedupKey).Nodup) ∧
    ((middleCandidates [msgU "سلام"]).length ≤ 17) ∧
    toTurn (msgU "سلام") ∈ selectContext [msgU "سلام"] :=
  ⟨by decide, by decide, by decide,
    select_recent_turn_present [msgU "سلام"] (msgU "سلام") (by decide)
      (by decide) (by decide)⟩

/-! ### Arbitration Engine agreement score (spec-modelled)

The backend service that runs the multi-model arbitration is not among
the source files of this repository (the frontend only consumes its
`MultiModelResponse`), so the agreement score is modelled from the
specification. -/

/-- Modelled from the spec: the canonical `Entity` shape
`(id?, name, type, attributes)`; identity for comparison is the pair
`(normalized(name), type)`. -/
structure Entity where
  id : Option String
  name : String
  type : String
  attributes : List (String × String)
deriving DecidableEq

/-- Modelled from the spec: the canonical `Relationship` shape; its
identity key is `(source_entity_id, target_entity_id, type)`. -/
structure Relationship where
  id : Option String
  source_entity_id : String
  target_entity_id : String
  type : String
  attributes : List (String × String)
deriving DecidableEq

/-- Modelled from the spec: one extraction pass's output. -/
structure ModelAnalysis where
  model_name : String
  entities : List Entity
  relationships : List Relationship
  confidence_score : Option ℚ
  reasoning : Option String
deriving DecidableEq

/-- One step of splitting a character list into whitespace-separated
words, from the right. -/
def wordsAux (c : Char) (acc : List Char × List (List Char)) :
    List Char × List (List Char) :=
  if isJsSpace c then ([], if acc.1 = [] then acc.2 else acc.1 :: acc.2)
  else (c :: acc.1, acc.2)

/-- The whitespace-separated words of a character list. -/
def wordsWs (cs : List Char) : List (List Char) :=
  let r := cs.foldr wordsAux ([], [])
  if r.1 = [] then r.2 else r.1 :: r.2

/-- Modelled from the spec: name normalization — case-folding and
whitespace-collapsing, never semantic equivalence. -/
def normalizeName (s : String) : List Char :=
  List.intercalate [' '] (wordsWs (jsToLower s.toList))

/-- Modelled from the spec: the identity key of an entity,
`(normalized(name), type)`. -/
def entityKey (e : Entity) : List Char × String :=
  (normalizeName e.name, e.type)

/-- Modelled from the spec: the identity key of a relationship,
`(source_entity_id, target_entity_id, type)`. -/
def relationshipKey (r : Relationship) : String × String × String :=
  (r.source_entity_id, r.target_entity_id, r.type)

/-- The set of entity identity keys of one analysis. -/
def entityKeys (a : ModelAnalysis) : Finset (List Char × String) :=
  (a.entities.map entityKey).toFinset

/-- The set of relationship identity keys of one analysis. -/
def relationshipKeys (a : ModelAnalysis) : Finset (String × String × String) :=
  (a.relationships.map relationshipKey).toFinset

/-- Modelled from the spec: the Jaccard-style `agreement_score` —
`|entities_in_both ∪ relationships_in_both| / |entities_in_either ∪
relationships_in_either|`, clamped to `[0,1]`, and defined as `1.0`
when both analyses are empty (the only case with denominator zero;
entity keys and relationship keys are of different kinds, so the spec's
unions are disjoint unions and their sizes add). -/
def agreementScore (a b : ModelAnalysis) : ℚ :=
  if ((entityKeys a ∪ entityKeys b).card : ℚ) +
      ((relationshipKeys a ∪ relationshipKeys b).card : ℚ) = 0 then 1
  else
    min 1 (max 0 ((((entityKeys a ∩ entityKeys b).card : ℚ) +
      ((relationshipKeys a ∩ relationshipKeys b).card : ℚ)) /
        (((entityKeys a ∪ entityKeys b).card : ℚ) +
          ((relationshipKeys a ∪ relationshipKeys b).card : ℚ))))

/-- C7: the agreement score always lies in `[0,1]`; it is exactly `1`
when the two analyses have identical entity and relationship
identity-key sets, exactly `0` when those key sets are disjoint and not
all empty, and `1` (with no division by zero) when both analyses are
empty. -/
theorem agreement_score_props (a b : ModelAnalysis) :
    (0 ≤ agreementScore a b ∧ agreementScore a b ≤ 1) ∧
    ((entityKeys a = entityKeys b ∧ relationshipKeys a = relationshipKeys b) →
      agreementScore a b = 1) ∧
    ((entityKeys a ∩ entityKeys b = ∅ ∧
      relationshipKeys a ∩ relationshipKeys b = ∅ ∧
      ¬(entityKeys a ∪ entityKeys b = ∅ ∧
        relationshipKeys a ∪ relationshipKeys b = ∅)) →
      agreementScore a b = 0) ∧
    ((a.entities = [] ∧ a.relationships = [] ∧ b.entities = [] ∧
      b.relationships = []) → agreementScore a b = 1) := by
  unfold agreementScore
  refine ⟨?_, ?_, ?_, ?_⟩
  · split
    · norm_num
    · constructor
      · exact le_min (by norm_num) (le_max_left 0 _)
      · exact min_le_left 1 _
  · rintro ⟨he, hr⟩
    rw [he, hr, Finset.union_self, Finset.union_self, Finset.inter_self,
      Finset.inter_self]
    split
    · rfl
    · rename_i hden
      rw [div_self hden]
      norm_num
  · rintro ⟨he, hr, hne⟩
    have hden : ((entityKeys a ∪ entityKeys b).card : ℚ) +
        ((relationshipKeys a ∪ relationshipKeys b).card : ℚ) ≠ 0 := by
      intro h0
      have hsum : (entityKeys a ∪ entityKeys b).card +
          (relationshipKeys a ∪ relationshipKeys b).card = 0 := by
        exact_mod_cast h0
      have he0 : (entityKeys a ∪ entityKeys b).card = 0 := by omega
      have hr0 : (relationshipKeys a ∪ relationshipKeys b).card = 0 := by
        omega
      exact hne ⟨Finset.card_eq_zero.mp he0, Finset.card_eq_zero.mp hr0⟩
    rw [if_neg hden, he, hr, Finset.card_empty, Finset.card_empty,
      Nat.cast_zero, zero_add, zero_div, max_self]
    exact min_eq_right (by norm_num)
  · rintro ⟨hea, hra, heb, hrb⟩
    have h1 : entityKeys a = ∅ := by
      unfold entityKeys
      rw [hea]
      rfl
    have h2 : relationshipKeys a = ∅ := by
      unfold relationshipKeys
      rw [hra]
      rfl
    have h3 : entityKeys b = ∅ := by
      unfold entityKeys
      rw [heb]
      rfl
    have h4 : relationshipKeys b = ∅ := by
      unfold relationshipKeys
      rw [hrb]
      rfl
    rw [h1, h2, h3, h4, Finset.union_empty, Finset.union_empty,
      Finset.card_empty, Finset.card_empty, Nat.cast_zero, zero_add]
    exact if_pos rfl

/-- A concrete analysis with one entity and one relationship. -/
def analysisAli : ModelAnalysis :=
  ⟨"gemma", [⟨none, "Ali", "PERSON", []⟩],
    [⟨none, "Ali", "Shop", "VISITED", []⟩], none, none⟩

/-- The same extraction reported by a different model. -/
def analysisAli2 : ModelAnalysis :=
  ⟨"llama", [⟨some "e1", "ali", "PERSON", []⟩],
    [⟨none, "Ali", "Shop", "VISITED", []⟩], some 1, none⟩

/-- A concrete analysis disjoint from `analysisAli`. -/
def analysisSara : ModelAnalysis :=
  ⟨"llama", [⟨none, "Sara", "PERSON", []⟩],
    [⟨none, "Sara", "Bank", "VISITED", []⟩], none, none⟩

/-- The empty analysis. -/
def analysisEmpty : ModelAnalysis :=
  ⟨"gemma", [], [], none, none⟩

/-- Witness for C7: agreement `1` on identical key sets (up to name
normalization), `0` on disjoint non-empty key sets, `1` on two empty
analyses. -/
theorem agreement_score_props_witness :
    agreementScore analysisAli analysisAli2 = 1 ∧
    agreementScore analysisAli analysisSara = 0 ∧
    agreementScore analysisEmpty analysisEmpty = 1 :=
  ⟨(agreement_score_props analysisAli analysisAli2).2.1
      ⟨by decide, by decide⟩,
    (agreement_score_props analysisAli analysisSara).2.2.1
      ⟨by decide, by decide, by decide⟩,
    (agreement_score_props analysisEmpty analysisEmpty).2.2.2
      ⟨rfl, rfl, rfl, rfl⟩⟩

end Monorepo
